import Mathlib

/-!
Shallow embedding of `src/scripts/analyze_flight_data.py` (geometry utilities,
waypoint proximity analysis and corner-pass detection) over exact real
arithmetic, together with theorems settling the frozen claims about it.

Modelling conventions:
* Python floats are modelled by `ℝ`; `float('inf')` is modelled by `(⊤ : EReal)`
  and finite distances are coerced into `EReal` where the source compares a
  distance against the running minimum that starts at `float('inf')`.
* `math.atan2`, `math.radians`, `math.degrees` and the float modulo operator
  `%` (with a positive right operand) are modelled by `atan2`, `radiansOf`,
  `degreesOf` and `pymod` below, following their documented semantics.
* Python lists are Lean `List`s; a `dict` of waypoints is an association list
  (insertion order is irrelevant to the analysed functions); `None` is `none`.
* The `alt` field of parsed points is never read by the analysed functions and
  is omitted from `GeoPoint`.
-/

namespace Ardu

open Real

/-- Model of `math.atan2 y x` (two-argument arctangent), by the standard
case split; signed zeros are not modelled, `atan2 0 0 = 0` as in CPython. -/
noncomputable def atan2 (y x : ℝ) : ℝ :=
  if 0 < x then Real.arctan (y / x)
  else if x < 0 then
    (if 0 ≤ y then Real.arctan (y / x) + π else Real.arctan (y / x) - π)
  else
    (if 0 < y then π / 2 else if y < 0 then -(π / 2) else 0)

/-- Model of `math.radians`: degrees to radians. -/
noncomputable def radiansOf (d : ℝ) : ℝ := d * π / 180

/-- Model of `math.degrees`: radians to degrees. -/
noncomputable def degreesOf (r : ℝ) : ℝ := r * 180 / π

/-- Model of Python's float `x % m` for a positive modulus `m`:
the result is `x - m * ⌊x / m⌋`, which lies in `[0, m)`. -/
noncomputable def pymod (x m : ℝ) : ℝ := x - m * ⌊x / m⌋

/-- The haversine intermediate term `a` of `haversine_distance`
(`analyze_flight_data.py` line 78), after converting the four inputs from
degrees to radians:
`a = sin(dlat/2)**2 + cos(lat1) * cos(lat2) * sin(dlon/2)**2`. -/
noncomputable def hav_a (lat1 lon1 lat2 lon2 : ℝ) : ℝ :=
  Real.sin ((radiansOf lat2 - radiansOf lat1) / 2) ^ 2 +
    Real.cos (radiansOf lat1) * Real.cos (radiansOf lat2) *
      Real.sin ((radiansOf lon2 - radiansOf lon1) / 2) ^ 2

/-- Embedding of `haversine_distance(lat1, lon1, lat2, lon2)`
(`analyze_flight_data.py` lines 72-80): `R * c` with `R = 6371000` and
`c = 2 * atan2(sqrt(a), sqrt(1 - a))`.  `math.sqrt` is modelled by
`Real.sqrt` (the argument of each square root is provably nonnegative on
every reachable input, see the development below). -/
noncomputable def haversine_distance (lat1 lon1 lat2 lon2 : ℝ) : ℝ :=
  6371000 *
    (2 * atan2 (Real.sqrt (hav_a lat1 lon1 lat2 lon2))
      (Real.sqrt (1 - hav_a lat1 lon1 lat2 lon2)))

/-- The raw initial bearing of `bearing(lat1, lon1, lat2, lon2)`
(`analyze_flight_data.py` lines 85-89): `atan2(x, y)` with
`x = sin(dlon) * cos(lat2)` and
`y = cos(lat1) * sin(lat2) - sin(lat1) * cos(lat2) * cos(dlon)`. -/
noncomputable def bearing_raw (lat1 lon1 lat2 lon2 : ℝ) : ℝ :=
  atan2
    (Real.sin (radiansOf lon2 - radiansOf lon1) * Real.cos (radiansOf lat2))
    (Real.cos (radiansOf lat1) * Real.sin (radiansOf lat2) -
      Real.sin (radiansOf lat1) * Real.cos (radiansOf lat2) *
        Real.cos (radiansOf lon2 - radiansOf lon1))

/-- Embedding of `bearing(lat1, lon1, lat2, lon2)`
(`analyze_flight_data.py` line 90): `(degrees(initial_bearing) + 360) % 360`. -/
noncomputable def bearing (lat1 lon1 lat2 lon2 : ℝ) : ℝ :=
  pymod (degreesOf (bearing_raw lat1 lon1 lat2 lon2) + 360) 360

/-- A normalized GPS track point (latitude and longitude in degrees). -/
structure GeoPoint where
  lat : ℝ
  lon : ℝ

/-- One entry of the `corner_points` list built by `find_corner_passes`
(`analyze_flight_data.py` lines 221-226): the enumerate index of the point
in the track, its coordinates and its precomputed distance to the corner. -/
structure CornerPoint where
  index : ℕ
  lat : ℝ
  lon : ℝ
  dist : ℝ

/-- One value of the `results` dict built by `analyze_waypoint_proximity`
(`analyze_flight_data.py` lines 203-206); `min_distance` is an `EReal`
because the scan starts from `float('inf')`. -/
structure ProxResult where
  min_distance : EReal
  point_index : Option ℕ

/-- The module-level `WAYPOINTS` table of `analyze_flight_data.py`
(lines 59-65), as an association list in the source order. -/
noncomputable def WAYPOINTS : List (String × GeoPoint) :=
  [("GATE", ⟨32.76300740, -117.21375030⟩),
   ("SW", ⟨32.76304460, -117.21412720⟩),
   ("NW", ⟨32.76338970, -117.21420500⟩),
   ("NE", ⟨32.76351600, -117.21344860⟩),
   ("SE", ⟨32.76310780, -117.21337620⟩)]

/-- Dictionary lookup `waypoints[name]` / `name in waypoints`, on the
association-list model of the waypoint dict. -/
def lookupWp (wps : List (String × GeoPoint)) (name : String) : Option GeoPoint :=
  (wps.find? (fun e => e.1 = name)).map (fun e => e.2)

/-- The `corner_order` list of `analyze_corner_detail`
(`analyze_flight_data.py` line 254). -/
def corner_order : List String := ["GATE", "SW", "NW", "NE", "SE"]

/-- Embedding of the adjacent-waypoint resolution of `analyze_corner_detail`
(`analyze_flight_data.py` lines 255-261): if the corner name is not in
`corner_order` both neighbours are `None`; otherwise
`prev_wp = waypoints[corner_order[idx - 1]] if idx > 0 else None` and
`next_wp = waypoints[corner_order[(idx + 1) % len(corner_order)]]`. -/
noncomputable def adjacent_wps (wps : List (String × GeoPoint)) (corner_name : String) :
    Option GeoPoint × Option GeoPoint :=
  if corner_name ∈ corner_order then
    let idx := corner_order.indexOf corner_name
    ((if 0 < idx then lookupWp wps (corner_order.getD (idx - 1) "") else none),
     lookupWp wps (corner_order.getD ((idx + 1) % corner_order.length) ""))
  else (none, none)

/-- The scanning loop of `analyze_waypoint_proximity`
(`analyze_flight_data.py` lines 193-201): state `(min_dist, closest_idx)`
starting from `(float('inf'), None)`, `i` the enumerate counter; the state is
updated exactly when `dist < min_dist` (strict comparison). -/
noncomputable def proxLoop (wp : GeoPoint) :
    EReal → Option ℕ → ℕ → List GeoPoint → EReal × Option ℕ
  | m, ci, _, [] => (m, ci)
  | m, ci, i, p :: ps =>
    if ((haversine_distance p.lat p.lon wp.lat wp.lon : ℝ) : EReal) < m then
      proxLoop wp ((haversine_distance p.lat p.lon wp.lat wp.lon : ℝ) : EReal)
        (some i) (i + 1) ps
    else proxLoop wp m ci (i + 1) ps

/-- The same minimum scan as `proxLoop`, abstracted over the list of
precomputed distances (proof infrastructure; `proxLoop` is pointwise equal
to it on the mapped distance list). -/
noncomputable def scanMinLoop : EReal → Option ℕ → ℕ → List ℝ → EReal × Option ℕ
  | m, ci, _, [] => (m, ci)
  | m, ci, i, d :: ds =>
    if ((d : ℝ) : EReal) < m then scanMinLoop ((d : ℝ) : EReal) (some i) (i + 1) ds
    else scanMinLoop m ci (i + 1) ds

/-- Embedding of `analyze_waypoint_proximity(coords, waypoints)`
(`analyze_flight_data.py` lines 189-208): one `proxLoop` scan per waypoint,
results keyed by waypoint name in table order. -/
noncomputable def analyze_waypoint_proximity (coords : List GeoPoint)
    (waypoints : List (String × GeoPoint)) : List (String × ProxResult) :=
  waypoints.map (fun e =>
    (e.1, ⟨(proxLoop e.2 ⊤ none 0 coords).1, (proxLoop e.2 ⊤ none 0 coords).2⟩))

/-- The filtering loop of `find_corner_passes`
(`analyze_flight_data.py` lines 216-226): keep every enumerated point whose
distance to the corner is strictly below `search_radius`, recording the
enumerate index, coordinates and distance. -/
noncomputable def corner_points_loop (wp : GeoPoint) (r : ℝ) :
    ℕ → List GeoPoint → List CornerPoint
  | _, [] => []
  | i, p :: ps =>
    if haversine_distance p.lat p.lon wp.lat wp.lon < r then
      ⟨i, p.lat, p.lon, haversine_distance p.lat p.lon wp.lat wp.lon⟩ ::
        corner_points_loop wp r (i + 1) ps
    else corner_points_loop wp r (i + 1) ps

/-- The grouping loop of `find_corner_passes`
(`analyze_flight_data.py` lines 232-240): `passes` and `current_pass` are the
accumulators, `prev` is the previous filtered point `corner_points[i-1]`
(always the last element of `current_pass`); the current pass is extended
when `corner_points[i]['index'] - corner_points[i-1]['index'] < gap`
(`gap = 10` in the source), otherwise a new pass is started; at the end the
final `current_pass` is appended. -/
def group_loop (gap : ℤ) :
    List (List CornerPoint) → List CornerPoint → CornerPoint →
      List CornerPoint → List (List CornerPoint)
  | passes, current, _, [] => passes ++ [current]
  | passes, current, prev, q :: qs =>
    if (q.index : ℤ) - (prev.index : ℤ) < gap then
      group_loop gap passes (current ++ [q]) q qs
    else
      group_loop gap (passes ++ [current]) [q] q qs

/-- The pass-detection pipeline of `find_corner_passes` with the index-gap
threshold exposed as a parameter (the spec's
`detect_passes(track, reference_point, radius, gap)`): filter, then group;
an empty filtered set yields an empty pass list
(`analyze_flight_data.py` lines 228-242). -/
noncomputable def detect_passes (coords : List GeoPoint) (wp : GeoPoint)
    (radius : ℝ) (gap : ℤ) : List (List CornerPoint) :=
  match corner_points_loop wp radius 0 coords with
  | [] => []
  | p :: rest => group_loop gap [] [p] p rest

/-- Embedding of `find_corner_passes(coords, corner_wp, search_radius)`
(`analyze_flight_data.py` lines 211-242): `detect_passes` with the
index-gap threshold hardcoded to `10` as in the source (line 235). -/
noncomputable def find_corner_passes (coords : List GeoPoint) (wp : GeoPoint)
    (radius : ℝ) : List (List CornerPoint) :=
  detect_passes coords wp radius 10

/-- The result skeleton of `analyze_corner_detail(coords, corner_name)`
(`analyze_flight_data.py` lines 245-264, 317): `none` models the
`print(ERROR: Unknown corner); return None` path taken when the name is not a
key of the waypoint table; otherwise the function returns the passes found
with the hardcoded `search_radius=50` (printing is not modelled). -/
noncomputable def analyze_corner_detail (coords : List GeoPoint)
    (corner_name : String) : Option (List (List CornerPoint)) :=
  match lookupWp WAYPOINTS corner_name with
  | none => none
  | some wp => some (find_corner_passes coords wp 50)

/-- Model of Python's `min(iterable, key=f)` scan for a nonempty iterable
split as `best :: xs`: the running best is replaced exactly when the
candidate's key is strictly smaller, so the first minimal element wins. -/
noncomputable def pyMinBy {α : Type} (f : α → ℝ) : α → List α → α
  | best, [] => best
  | best, x :: xs => if f x < f best then pyMinBy f x xs else pyMinBy f best xs

/-- The per-pass closest-approach selection of `analyze_corner_detail`
(`analyze_flight_data.py` line 289): `min(pass_points, key=lambda x: x['dist'])`;
`none` for an empty pass (Python `min` would raise there, but every
generated pass is nonempty). -/
noncomputable def passClosest : List CornerPoint → Option CornerPoint
  | [] => none
  | p :: ps => some (pyMinBy CornerPoint.dist p ps)

/-- Sequence index of the first point of a pass (`0` for an empty list;
every generated pass is nonempty). -/
def firstIdx (l : List CornerPoint) : ℕ :=
  ((l.head?).map CornerPoint.index).getD 0

/-- Sequence index of the last point of a pass (`0` for an empty list). -/
def lastIdx (l : List CornerPoint) : ℕ :=
  ((l.getLast?).map CornerPoint.index).getD 0

/-- The within-pass relation of the grouping rule: the index gap between two
consecutive filtered points is strictly below the threshold
(`corner_points[i]['index'] - corner_points[i-1]['index'] < 10` in the
source, line 235). -/
def gapSmall (gap : ℤ) (u v : CornerPoint) : Prop :=
  (v.index : ℤ) - (u.index : ℤ) < gap

/-- The between-passes relation: the index gap from the last point of one
pass to the first point of the next is at least the threshold. -/
def gapBig (gap : ℤ) (a b : List CornerPoint) : Prop :=
  gap ≤ (firstIdx b : ℤ) - (lastIdx a : ℤ)

/-- A track point sitting exactly on the reference point `⟨0, 0⟩`. -/
def nearPt : GeoPoint := ⟨0, 0⟩

/-- A track point antipodal in longitude to `nearPt`, at great-circle
distance `6371000 * π` from it. -/
def farPt : GeoPoint := ⟨0, 180⟩

/-- A concrete 53-point track whose points within 50 m of `nearPt` are
exactly those at indices 0, 1, 2, 50, 51 and 52. -/
def witnessTrack : List GeoPoint :=
  [nearPt, nearPt, nearPt] ++ (List.replicate 47 farPt ++ [nearPt, nearPt, nearPt])

/-! Section: Geodesy lemmas -/

lemma pymod_mem (x m : ℝ) (hm : 0 < m) : 0 ≤ pymod x m ∧ pymod x m < m := by
  unfold pymod
  have hx : x / m * m = x := div_mul_cancel₀ x hm.ne'
  constructor
  · have h1 : (⌊x / m⌋ : ℝ) ≤ x / m := Int.floor_le _
    have h2 : m * (⌊x / m⌋ : ℝ) ≤ m * (x / m) := mul_le_mul_of_nonneg_left h1 hm.le
    nlinarith
  · have h1 : x / m < (⌊x / m⌋ : ℝ) + 1 := Int.lt_floor_add_one _
    have h2 : m * (x / m) < m * ((⌊x / m⌋ : ℝ) + 1) := mul_lt_mul_of_pos_left h1 hm
    nlinarith

lemma sin_sq_half_swap (x y : ℝ) :
    Real.sin ((x - y) / 2) ^ 2 = Real.sin ((y - x) / 2) ^ 2 := by
  rw [show (x - y) / 2 = -((y - x) / 2) by ring, Real.sin_neg]
  ring

lemma hav_a_symm (lat1 lon1 lat2 lon2 : ℝ) :
    hav_a lat1 lon1 lat2 lon2 = hav_a lat2 lon2 lat1 lon1 := by
  unfold hav_a
  rw [sin_sq_half_swap (radiansOf lat2) (radiansOf lat1),
    sin_sq_half_swap (radiansOf lon2) (radiansOf lon1)]
  ring

lemma atan2_nonneg {y x : ℝ} (hy : 0 ≤ y) : 0 ≤ atan2 y x := by
  unfold atan2
  split_ifs with h1 h2 h3 h4
  · have h0 : (0 : ℝ) ≤ y / x := div_nonneg hy h1.le
    have := Real.arctan_strictMono.monotone h0
    rwa [Real.arctan_zero] at this
  · have := Real.neg_pi_div_two_lt_arctan (y / x)
    have hπ := Real.pi_pos
    linarith
  · have hπ := Real.pi_pos
    linarith
  · linarith
  · exact le_refl 0

lemma haversine_nonneg (lat1 lon1 lat2 lon2 : ℝ) :
    0 ≤ haversine_distance lat1 lon1 lat2 lon2 := by
  unfold haversine_distance
  have h : 0 ≤ atan2 (Real.sqrt (hav_a lat1 lon1 lat2 lon2))
      (Real.sqrt (1 - hav_a lat1 lon1 lat2 lon2)) :=
    atan2_nonneg (Real.sqrt_nonneg _)
  nlinarith

lemma radiansOf_zero : radiansOf 0 = 0 := by
  unfold radiansOf; ring

lemma radiansOf_180 : radiansOf 180 = π := by
  unfold radiansOf; ring

lemma hav_a_00 : hav_a 0 0 0 0 = 0 := by
  unfold hav_a
  simp [radiansOf_zero]

lemma hav_near : haversine_distance 0 0 0 0 = 0 := by
  unfold haversine_distance
  rw [hav_a_00]
  rw [Real.sqrt_zero, show (1 : ℝ) - 0 = 1 by norm_num, Real.sqrt_one]
  unfold atan2
  rw [if_pos (by norm_num : (0 : ℝ) < 1)]
  rw [zero_div, Real.arctan_zero]
  ring

lemma hav_a_far : hav_a 0 180 0 0 = 1 := by
  unfold hav_a
  rw [radiansOf_zero, radiansOf_180]
  rw [show ((0 : ℝ) - 0) / 2 = 0 by ring, show ((0 : ℝ) - π) / 2 = -(π / 2) by ring]
  rw [Real.sin_zero, Real.sin_neg, Real.sin_pi_div_two, Real.cos_zero]
  ring

lemma hav_far : haversine_distance 0 180 0 0 = 6371000 * π := by
  unfold haversine_distance
  rw [hav_a_far]
  rw [Real.sqrt_one, show (1 : ℝ) - 1 = 0 by norm_num, Real.sqrt_zero]
  unfold atan2
  rw [if_neg (by norm_num : ¬ (0 : ℝ) < 0), if_neg (by norm_num : ¬ (0 : ℝ) < 0),
    if_pos (by norm_num : (0 : ℝ) < 1)]
  ring

lemma not_far_lt_50 : ¬ (6371000 * π < 50) := by
  have h := Real.pi_gt_three
  nlinarith

/-- Claim C8 (confirmed): for every pair of coordinate pairs the reported
bearing lies in the half-open interval `[0, 360)`, and the normalization is
the add-360-then-mod-360 map applied to the raw initial bearing, so a raw
bearing of `-10` degrees is reported as `350`. -/
theorem c8_bearing_range (lat1 lon1 lat2 lon2 : ℝ) :
    (0 ≤ bearing lat1 lon1 lat2 lon2 ∧ bearing lat1 lon1 lat2 lon2 < 360) ∧
      bearing lat1 lon1 lat2 lon2 =
        pymod (degreesOf (bearing_raw lat1 lon1 lat2 lon2) + 360) 360 ∧
      pymod (-10 + 360) 360 = 350 := by
  refine ⟨?_, rfl, ?_⟩
  · have h := pymod_mem (degreesOf (bearing_raw lat1 lon1 lat2 lon2) + 360) 360
      (by norm_num)
    simpa [bearing] using h
  · unfold pymod
    rw [show ((-10 : ℝ) + 360) / 360 = 35 / 36 by norm_num]
    rw [show ⌊(35 / 36 : ℝ)⌋ = 0 by
      rw [Int.floor_eq_zero_iff]
      constructor <;> norm_num]
    norm_num

/-- Claim C9 (confirmed): the great-circle distance is symmetric in its two
points, exactly, over exact real arithmetic on the haversine formula. -/
theorem c9_haversine_symm (lat1 lon1 lat2 lon2 : ℝ) :
    haversine_distance lat1 lon1 lat2 lon2 = haversine_distance lat2 lon2 lat1 lon1 := by
  unfold haversine_distance
  rw [hav_a_symm]

/-! Section: Properties of the radius filter -/

lemma corner_points_loop_mem (wp : GeoPoint) (r : ℝ) :
    ∀ (coords : List GeoPoint) (j : ℕ) (q : CornerPoint),
      q ∈ corner_points_loop wp r j coords →
        j ≤ q.index ∧ q.dist = haversine_distance q.lat q.lon wp.lat wp.lon ∧
          q.dist < r ∧ coords.get? (q.index - j) = some ⟨q.lat, q.lon⟩ := by
  intro coords
  induction coords with
  | nil => intro j q hq; simp [corner_points_loop] at hq
  | cons p ps ih =>
    intro j q hq
    by_cases hd : haversine_distance p.lat p.lon wp.lat wp.lon < r
    · rw [corner_points_loop, if_pos hd] at hq
      rcases List.mem_cons.mp hq with rfl | hq'
      · refine ⟨le_refl j, rfl, hd, ?_⟩
        simp
      · obtain ⟨hj, hdist, hlt, hget⟩ := ih (j + 1) q hq'
        refine ⟨by omega, hdist, hlt, ?_⟩
        rw [show q.index - j = (q.index - (j + 1)) + 1 by omega]
        simpa using hget
    · rw [corner_points_loop, if_neg hd] at hq
      obtain ⟨hj, hdist, hlt, hget⟩ := ih (j + 1) q hq
      refine ⟨by omega, hdist, hlt, ?_⟩
      rw [show q.index - j = (q.index - (j + 1)) + 1 by omega]
      simpa using hget

lemma corner_points_loop_pairwise (wp : GeoPoint) (r : ℝ) :
    ∀ (coords : List GeoPoint) (j : ℕ),
      (corner_points_loop wp r j coords).Pairwise (fun a b => a.index < b.index) := by
  intro coords
  induction coords with
  | nil => intro j; simp [corner_points_loop]
  | cons p ps ih =>
    intro j
    by_cases hd : haversine_distance p.lat p.lon wp.lat wp.lon < r
    · rw [corner_points_loop, if_pos hd]
      refine List.Pairwise.cons ?_ (ih (j + 1))
      intro b hb
      have := (corner_points_loop_mem wp r ps (j + 1) b hb).1
      simpa using by omega
    · rw [corner_points_loop, if_neg hd]
      exact ih (j + 1)

lemma corner_points_loop_index_iff (wp : GeoPoint) (r : ℝ) :
    ∀ (coords : List GeoPoint) (j i : ℕ),
      ((∃ q ∈ corner_points_loop wp r j coords, q.index = j + i) ↔
        ∃ p, coords.get? i = some p ∧
          haversine_distance p.lat p.lon wp.lat wp.lon < r) := by
  intro coords
  induction coords with
  | nil => intro j i; simp [corner_points_loop]
  | cons p ps ih =>
    intro j i
    by_cases hd : haversine_distance p.lat p.lon wp.lat wp.lon < r
    · rw [corner_points_loop, if_pos hd]
      cases i with
      | zero =>
        simp only [List.get?]
        constructor
        · intro _; exact ⟨p, rfl, hd⟩
        · intro _
          exact ⟨⟨j, p.lat, p.lon, haversine_distance p.lat p.lon wp.lat wp.lon⟩,
            List.mem_cons_self _ _, by simp⟩
      | succ i' =>
        simp only [List.get?]
        rw [← ih (j + 1) i']
        constructor
        · rintro ⟨q, hq, hqi⟩
          rcases List.mem_cons.mp hq with rfl | hq'
          · exfalso
            have hqi' : j = j + (i' + 1) := hqi
            omega
          · exact ⟨q, hq', by omega⟩
        · rintro ⟨q, hq, hqi⟩
          exact ⟨q, List.mem_cons_of_mem _ hq, by omega⟩
    · rw [corner_points_loop, if_neg hd]
      cases i with
      | zero =>
        simp only [List.get?]
        constructor
        · rintro ⟨q, hq, hqi⟩
          have := (corner_points_loop_mem wp r ps (j + 1) q hq).1
          omega
        · rintro ⟨p', hp', hlt⟩
          cases hp'
          exact absurd hlt hd
      | succ i' =>
        simp only [List.get?]
        rw [← ih (j + 1) i']
        constructor
        · rintro ⟨q, hq, hqi⟩; exact ⟨q, hq, by omega⟩
        · rintro ⟨q, hq, hqi⟩; exact ⟨q, hq, by omega⟩

lemma corner_points_loop_nonpos (wp : GeoPoint) (r : ℝ) (hr : r ≤ 0) :
    ∀ (coords : List GeoPoint) (j : ℕ), corner_points_loop wp r j coords = [] := by
  intro coords
  induction coords with
  | nil => intro j; rfl
  | cons p ps ih =>
    intro j
    rw [corner_points_loop,
      if_neg (not_lt.mpr (le_trans hr (haversine_nonneg p.lat p.lon wp.lat wp.lon)))]
    exact ih (j + 1)

lemma corner_points_loop_append (wp : GeoPoint) (r : ℝ) :
    ∀ (xs ys : List GeoPoint) (j : ℕ),
      corner_points_loop wp r j (xs ++ ys) =
        corner_points_loop wp r j xs ++ corner_points_loop wp r (j + xs.length) ys := by
  intro xs
  induction xs with
  | nil => intro ys j; simp [corner_points_loop]
  | cons x xs ih =>
    intro ys j
    simp only [List.cons_append, List.length_cons]
    by_cases hd : haversine_distance x.lat x.lon wp.lat wp.lon < r
    · rw [corner_points_loop, if_pos hd, corner_points_loop, if_pos hd, ih,
        List.cons_append, show j + 1 + xs.length = j + (xs.length + 1) by omega]
    · rw [corner_points_loop, if_neg hd, corner_points_loop, if_neg hd, ih,
        show j + 1 + xs.length = j + (xs.length + 1) by omega]

/-! Section: Properties of the grouping loop -/

lemma group_loop_flatten (gap : ℤ) :
    ∀ (rest : List CornerPoint) (passes : List (List CornerPoint))
      (current : List CornerPoint) (prev : CornerPoint),
      (group_loop gap passes current prev rest).flatten =
        passes.flatten ++ current ++ rest := by
  intro rest
  induction rest with
  | nil =>
    intro passes current prev
    simp [group_loop, List.flatten_append]
  | cons q qs ih =>
    intro passes current prev
    by_cases h : (q.index : ℤ) - (prev.index : ℤ) < gap
    · rw [group_loop, if_pos h, ih]
      simp
    · rw [group_loop, if_neg h, ih]
      simp [List.flatten_append]

lemma group_loop_ne_nil (gap : ℤ) :
    ∀ (rest : List CornerPoint) (passes : List (List CornerPoint))
      (current : List CornerPoint) (prev : CornerPoint),
      (∀ l ∈ passes, l ≠ []) → current ≠ [] →
        ∀ l ∈ group_loop gap passes current prev rest, l ≠ [] := by
  intro rest
  induction rest with
  | nil =>
    intro passes current prev hp hc l hl
    rcases List.mem_append.mp hl with h | h
    · exact hp l h
    · simp at h; subst h; exact hc
  | cons q qs ih =>
    intro passes current prev hp hc l hl
    by_cases h : (q.index : ℤ) - (prev.index : ℤ) < gap
    · rw [group_loop, if_pos h] at hl
      refine ih passes (current ++ [q]) q hp (by simp) l hl
    · rw [group_loop, if_neg h] at hl
      refine ih (passes ++ [current]) [q] q ?_ (by simp) l hl
      intro l' hl'
      rcases List.mem_append.mp hl' with h' | h'
      · exact hp l' h'
      · simp at h'; subst h'; exact hc

lemma group_loop_chain (gap : ℤ) :
    ∀ (rest : List CornerPoint) (passes : List (List CornerPoint))
      (current : List CornerPoint) (prev : CornerPoint),
      current.getLast? = some prev →
      (∀ l ∈ passes, l.Chain' (gapSmall gap)) →
      current.Chain' (gapSmall gap) →
        ∀ l ∈ group_loop gap passes current prev rest, l.Chain' (gapSmall gap) := by
  intro rest
  induction rest with
  | nil =>
    intro passes current prev _ hp hc l hl
    rcases List.mem_append.mp hl with h | h
    · exact hp l h
    · simp at h; subst h; exact hc
  | cons q qs ih =>
    intro passes current prev hlast hp hc l hl
    by_cases h : (q.index : ℤ) - (prev.index : ℤ) < gap
    · rw [group_loop, if_pos h] at hl
      refine ih passes (current ++ [q]) q (List.getLast?_concat _) hp ?_ l hl
      refine List.Chain'.append hc (List.chain'_singleton q) ?_
      intro x hx y hy
      rw [hlast] at hx
      simp at hx hy
      subst hx; subst hy
      exact h
    · rw [group_loop, if_neg h] at hl
      refine ih (passes ++ [current]) [q] q rfl ?_ (List.chain'_singleton q) l hl
      intro l' hl'
      rcases List.mem_append.mp hl' with h' | h'
      · exact hp l' h'
      · simp at h'; subst h'; exact hc

lemma firstIdx_concat (current : List CornerPoint) (q : CornerPoint)
    (h : current ≠ []) : firstIdx (current ++ [q]) = firstIdx current := by
  cases current with
  | nil => exact absurd rfl h
  | cons c cs => rfl

lemma lastIdx_of_getLast (current : List CornerPoint) (prev : CornerPoint)
    (h : current.getLast? = some prev) : lastIdx current = prev.index := by
  unfold lastIdx
  rw [h]
  rfl

lemma group_loop_bound (gap : ℤ) :
    ∀ (rest : List CornerPoint) (passes : List (List CornerPoint))
      (current : List CornerPoint) (prev : CornerPoint),
      current.getLast? = some prev →
      (passes ++ [current]).Chain' (gapBig gap) →
        (group_loop gap passes current prev rest).Chain' (gapBig gap) := by
  intro rest
  induction rest with
  | nil =>
    intro passes current prev _ hchain
    rw [group_loop]
    exact hchain
  | cons q qs ih =>
    intro passes current prev hlast hchain
    have hcur_ne : current ≠ [] := by
      intro hnil; rw [hnil] at hlast; simp at hlast
    by_cases h : (q.index : ℤ) - (prev.index : ℤ) < gap
    · rw [group_loop, if_pos h]
      refine ih passes (current ++ [q]) q (List.getLast?_concat _) ?_
      obtain ⟨h1, _, h3⟩ := List.chain'_append.mp hchain
      refine List.chain'_append.mpr ⟨h1, List.chain'_singleton _, ?_⟩
      intro x hx y hy
      simp at hy
      subst hy
      have := h3 x hx current (by simp)
      unfold gapBig at this ⊢
      rwa [firstIdx_concat current q hcur_ne]
    · rw [group_loop, if_neg h]
      refine ih (passes ++ [current]) [q] q rfl ?_
      refine List.chain'_append.mpr ⟨hchain, List.chain'_singleton _, ?_⟩
      intro x hx y hy
      rw [List.getLast?_concat] at hx
      simp at hx hy
      subst hx; subst hy
      unfold gapBig
      rw [lastIdx_of_getLast current prev hlast]
      unfold firstIdx
      simp
      omega

/-! Section: Pass-detection theorems -/

lemma detect_passes_flatten (coords : List GeoPoint) (wp : GeoPoint) (r : ℝ)
    (gap : ℤ) :
    (detect_passes coords wp r gap).flatten = corner_points_loop wp r 0 coords := by
  unfold detect_passes
  cases h : corner_points_loop wp r 0 coords with
  | nil => rfl
  | cons p rest =>
    rw [group_loop_flatten]
    rfl

lemma detect_passes_ne_nil (coords : List GeoPoint) (wp : GeoPoint) (r : ℝ)
    (gap : ℤ) : ∀ l ∈ detect_passes coords wp r gap, l ≠ [] := by
  unfold detect_passes
  cases h : corner_points_loop wp r 0 coords with
  | nil => intro l hl; simp at hl
  | cons p rest =>
    exact group_loop_ne_nil gap rest [] [p] p (by simp) (by simp)

/-- Claim C5 (confirmed): for every track, reference point, radius and gap
threshold, the detected passes concatenate (in order) to exactly the
radius-filtered point list, every pass is nonempty, the passes are totally
ordered by the index of their first point, the union of point indices across
passes has no duplicates, and every point of every pass lies strictly inside
the search radius (so points outside the radius belong to no pass) and comes
from the track at its recorded index. -/
theorem c5_pass_invariants (coords : List GeoPoint) (wp : GeoPoint) (r : ℝ)
    (gap : ℤ) :
    (detect_passes coords wp r gap).flatten = corner_points_loop wp r 0 coords ∧
    (∀ l ∈ detect_passes coords wp r gap, l ≠ []) ∧
    (detect_passes coords wp r gap).Pairwise (fun a b => firstIdx a < firstIdx b) ∧
    ((detect_passes coords wp r gap).flatten.map CornerPoint.index).Nodup ∧
    ∀ q ∈ (detect_passes coords wp r gap).flatten,
      q.dist = haversine_distance q.lat q.lon wp.lat wp.lon ∧ q.dist < r ∧
        coords.get? q.index = some ⟨q.lat, q.lon⟩ := by
  have hflat := detect_passes_flatten coords wp r gap
  have hne := detect_passes_ne_nil coords wp r gap
  have hpw : (detect_passes coords wp r gap).flatten.Pairwise
      (fun a b => a.index < b.index) := by
    rw [hflat]; exact corner_points_loop_pairwise wp r coords 0
  refine ⟨hflat, hne, ?_, ?_, ?_⟩
  · have h2 := (List.pairwise_flatten.mp hpw).2
    refine h2.imp_of_mem ?_
    intro a b ha hb hab
    have hane := hne a ha
    have hbne := hne b hb
    cases a with
    | nil => exact absurd rfl hane
    | cons x xs =>
      cases b with
      | nil => exact absurd rfl hbne
      | cons y ys => exact hab x (List.mem_cons_self _ _) y (List.mem_cons_self _ _)
  · exact (List.pairwise_map.mpr hpw).nodup
  · intro q hq
    rw [hflat] at hq
    obtain ⟨_, hdist, hlt, hget⟩ := corner_points_loop_mem wp r coords 0 q hq
    exact ⟨hdist, hlt, by simpa using hget⟩

/-- Claim C3, amended (the source filter keeps a point exactly when its
distance to the reference point is strictly less than `search_radius` — the
open disk, so a point at distance exactly the radius is excluded): an index
occurs in the filtered set iff the track point at that index is strictly
within the radius, and every filtered entry carries its haversine distance,
which is strictly below the radius. -/
theorem c3_amended (coords : List GeoPoint) (wp : GeoPoint) (r : ℝ) :
    (∀ i, ((∃ q ∈ corner_points_loop wp r 0 coords, q.index = i) ↔
      ∃ p, coords.get? i = some p ∧
        haversine_distance p.lat p.lon wp.lat wp.lon < r)) ∧
    ∀ q ∈ corner_points_loop wp r 0 coords,
      q.dist = haversine_distance q.lat q.lon wp.lat wp.lon ∧ q.dist < r ∧
        coords.get? q.index = some ⟨q.lat, q.lon⟩ := by
  constructor
  · intro i
    have h := corner_points_loop_index_iff wp r coords 0 i
    simpa using h
  · intro q hq
    obtain ⟨_, hdist, hlt, hget⟩ := corner_points_loop_mem wp r coords 0 q hq
    exact ⟨hdist, hlt, by simpa using hget⟩

/-- Claim C3, counterexample: a point at distance exactly the search radius
is NOT included in the filtered set (the claim asserts the closed disk, the
code uses a strict comparison). `farPt` lies at distance exactly
`6371000 * π` from `nearPt`, yet with that very value as the radius the
filtered set and the pass list are empty. -/
theorem c3_counterexample :
    haversine_distance farPt.lat farPt.lon nearPt.lat nearPt.lon = 6371000 * π ∧
    corner_points_loop nearPt (6371000 * π) 0 [farPt] = [] ∧
    find_corner_passes [farPt] nearPt (6371000 * π) = [] := by
  have h : haversine_distance farPt.lat farPt.lon nearPt.lat nearPt.lon =
      6371000 * π := hav_far
  refine ⟨h, ?_, ?_⟩
  · rw [corner_points_loop, if_neg (by rw [h]; exact lt_irrefl _)]
    rfl
  · unfold find_corner_passes detect_passes
    rw [show corner_points_loop nearPt (6371000 * π) 0 [farPt] = [] from by
      rw [corner_points_loop, if_neg (by rw [h]; exact lt_irrefl _)]; rfl]

/-- Claim C2 (confirmed): walking the radius-filtered points in order, a new
pass starts exactly when the index gap to the previous filtered point is at
least 10 — within each pass all consecutive gaps are `< 10`, and across a
pass boundary the gap is `>= 10`; in particular a filtered index sequence
`[0,1,2,50,51,52]` yields exactly the two passes `[0,1,2]` and
`[50,51,52]`, in that order. -/
theorem c2_gap_rule (coords : List GeoPoint) (wp : GeoPoint) (r : ℝ) :
    (∀ l ∈ find_corner_passes coords wp r, l.Chain' (gapSmall 10)) ∧
    (find_corner_passes coords wp r).Chain' (gapBig 10) ∧
    ((corner_points_loop wp r 0 coords).map CornerPoint.index = [0, 1, 2, 50, 51, 52] →
      (find_corner_passes coords wp r).map (List.map CornerPoint.index) =
        [[0, 1, 2], [50, 51, 52]]) := by
  refine ⟨?_, ?_, ?_⟩
  · unfold find_corner_passes detect_passes
    cases h : corner_points_loop wp r 0 coords with
    | nil => intro l hl; simp at hl
    | cons p rest =>
      exact group_loop_chain 10 rest [] [p] p rfl (by simp) (List.chain'_singleton p)
  · unfold find_corner_passes detect_passes
    cases h : corner_points_loop wp r 0 coords with
    | nil => simp
    | cons p rest =>
      exact group_loop_bound 10 rest [] [p] p rfl
        (by simp)
  · intro h
    cases hl : corner_points_loop wp r 0 coords with
    | nil => rw [hl] at h; simp at h
    | cons q0 t0 =>
      have hfc : find_corner_passes coords wp r = group_loop 10 [] [q0] q0 t0 := by
        unfold find_corner_passes detect_passes
        rw [hl]
      rw [hl] at h
      rw [hfc]
      cases t0 with
      | nil => simp at h
      | cons q1 t1 =>
        cases t1 with
        | nil => simp at h
        | cons q2 t2 =>
          cases t2 with
          | nil => simp at h
          | cons q3 t3 =>
            cases t3 with
            | nil => simp at h
            | cons q4 t4 =>
              cases t4 with
              | nil => simp at h
              | cons q5 t5 =>
                cases t5 with
                | cons q6 t6 => simp at h
                | nil =>
                  simp only [List.map_cons, List.map_nil, List.cons.injEq,
                    and_true] at h
                  obtain ⟨h0, h1, h2, h3, h4, h5⟩ := h
                  rw [group_loop, if_pos (show (q1.index : ℤ) - (q0.index : ℤ) < 10 by
                    rw [h1, h0]; norm_num)]
                  rw [group_loop, if_pos (show (q2.index : ℤ) - (q1.index : ℤ) < 10 by
                    rw [h2, h1]; norm_num)]
                  rw [group_loop, if_neg (show ¬ ((q3.index : ℤ) - (q2.index : ℤ) < 10) by
                    rw [h3, h2]; norm_num)]
                  rw [group_loop, if_pos (show (q4.index : ℤ) - (q3.index : ℤ) < 10 by
                    rw [h4, h3]; norm_num)]
                  rw [group_loop, if_pos (show (q5.index : ℤ) - (q4.index : ℤ) < 10 by
                    rw [h5, h4]; norm_num)]
                  rw [group_loop]
                  simp [h0, h1, h2, h3, h4, h5]

/-! Section: Concrete evaluation of the witness track -/

lemma cpl_near_cons (i : ℕ) (ps : List GeoPoint) :
    corner_points_loop nearPt 50 i (nearPt :: ps) =
      ⟨i, 0, 0, 0⟩ :: corner_points_loop nearPt 50 (i + 1) ps := by
  rw [corner_points_loop, if_pos (by
    rw [show haversine_distance nearPt.lat nearPt.lon nearPt.lat nearPt.lon = 0
      from hav_near]
    norm_num)]
  congr 1
  simp [nearPt]
  exact hav_near

lemma cpl_replicate_far :
    ∀ (n i : ℕ), corner_points_loop nearPt 50 i (List.replicate n farPt) = [] := by
  intro n
  induction n with
  | zero => intro i; rfl
  | succ n ih =>
    intro i
    rw [List.replicate_succ, corner_points_loop, if_neg (by
      rw [show haversine_distance farPt.lat farPt.lon nearPt.lat nearPt.lon =
        6371000 * π from hav_far]
      exact not_far_lt_50)]
    exact ih (i + 1)

lemma cpl_near3 (i : ℕ) :
    corner_points_loop nearPt 50 i [nearPt, nearPt, nearPt] =
      [⟨i, 0, 0, 0⟩, ⟨i + 1, 0, 0, 0⟩, ⟨i + 2, 0, 0, 0⟩] := by
  rw [cpl_near_cons, cpl_near_cons, cpl_near_cons]
  rfl

lemma witnessTrack_filter :
    corner_points_loop nearPt 50 0 witnessTrack =
      [⟨0, 0, 0, 0⟩, ⟨1, 0, 0, 0⟩, ⟨2, 0, 0, 0⟩,
        ⟨50, 0, 0, 0⟩, ⟨51, 0, 0, 0⟩, ⟨52, 0, 0, 0⟩] := by
  unfold witnessTrack
  rw [corner_points_loop_append, corner_points_loop_append, cpl_near3,
    cpl_replicate_far]
  simp only [List.length_cons, List.length_nil, List.length_replicate]
  rw [show (0 : ℕ) + (0 + 1 + 1 + 1) + 47 = 50 by norm_num, cpl_near3]
  norm_num

lemma witnessTrack_filter_indices :
    (corner_points_loop nearPt 50 0 witnessTrack).map CornerPoint.index =
      [0, 1, 2, 50, 51, 52] := by
  rw [witnessTrack_filter]
  rfl

/-- Witness for claim C2: on the concrete 53-point `witnessTrack` the
radius-filtered indices are exactly `[0,1,2,50,51,52]`, and
`find_corner_passes` returns exactly the two passes `[0,1,2]` and
`[50,51,52]`, in that order. -/
theorem c2_gap_rule_witness :
    (corner_points_loop nearPt 50 0 witnessTrack).map CornerPoint.index =
      [0, 1, 2, 50, 51, 52] ∧
    (find_corner_passes witnessTrack nearPt 50).map (List.map CornerPoint.index) =
      [[0, 1, 2], [50, 51, 52]] :=
  ⟨witnessTrack_filter_indices,
    (c2_gap_rule witnessTrack nearPt 50).2.2 witnessTrack_filter_indices⟩

/-- Claim C6, counterexample: a non-positive search radius is silently
tolerated rather than failing fast — `find_corner_passes` on a nonempty
track with radius `-5` (or `0`) simply returns the empty pass list; the
source has no validation of the radius (and the index-gap threshold is a
hardcoded constant, not a checkable parameter). -/
theorem c6_counterexample :
    find_corner_passes [nearPt] nearPt (-5) = [] ∧
    find_corner_passes [nearPt] nearPt 0 = [] := by
  constructor
  · unfold find_corner_passes detect_passes
    rw [corner_points_loop_nonpos nearPt (-5) (by norm_num) [nearPt] 0]
  · unfold find_corner_passes detect_passes
    rw [corner_points_loop_nonpos nearPt 0 (by norm_num) [nearPt] 0]

/-- Claim C6, amended: an unknown reference-point name does fail fast with
an explicit error condition (`analyze_corner_detail` hits its
`ERROR: Unknown corner` path, modelled as `none`, exactly when the name is
not a key of the waypoint table), but a non-positive radius or gap parameter
is NOT validated: a non-positive radius silently yields the empty pass list
(the gap threshold is the hardcoded constant 10). -/
theorem c6_amended :
    (∀ (coords : List GeoPoint) (name : String),
      lookupWp WAYPOINTS name = none → analyze_corner_detail coords name = none) ∧
    (∀ (coords : List GeoPoint) (name : String) (wp : GeoPoint),
      lookupWp WAYPOINTS name = some wp →
        analyze_corner_detail coords name = some (find_corner_passes coords wp 50)) ∧
    (∀ (coords : List GeoPoint) (wp : GeoPoint) (r : ℝ), r ≤ 0 →
      find_corner_passes coords wp r = []) := by
  refine ⟨?_, ?_, ?_⟩
  · intro coords name h
    unfold analyze_corner_detail
    rw [h]
  · intro coords name wp h
    unfold analyze_corner_detail
    rw [h]
  · intro coords wp r hr
    unfold find_corner_passes detect_passes
    rw [corner_points_loop_nonpos wp r hr coords 0]

/-- Witness for claim C6 (amended): an unknown name `XX` produces the error
result, the known name `NE` produces the pass analysis for the NE waypoint,
and a negative radius silently produces an empty pass list. -/
theorem c6_amended_witness :
    analyze_corner_detail [] "XX" = none ∧
    analyze_corner_detail [] "NE" =
      some (find_corner_passes [] ⟨32.76351600, -117.21344860⟩ 50) ∧
    find_corner_passes [nearPt] nearPt (-1) = [] :=
  ⟨c6_amended.1 [] "XX" rfl,
    c6_amended.2.1 [] "NE" ⟨32.76351600, -117.21344860⟩ rfl,
    c6_amended.2.2 [nearPt] nearPt (-1) (by norm_num)⟩

/-- Claim C4, counterexample: for the empty track,
`analyze_waypoint_proximity` reports, for every waypoint of the course
table, `min_distance = ⊤` — the model of the `float('inf')` starting value —
so the conceptual infinity IS exposed in the output, contradicting the
claim that a sentinel/None is returned in its place (the point index is
indeed `None`). -/
theorem c4_counterexample :
    (analyze_waypoint_proximity [] WAYPOINTS).map
        (fun e => (e.1, e.2.min_distance, e.2.point_index)) =
      [("GATE", (⊤ : EReal), (none : Option ℕ)),
       ("SW", (⊤ : EReal), (none : Option ℕ)),
       ("NW", (⊤ : EReal), (none : Option ℕ)),
       ("NE", (⊤ : EReal), (none : Option ℕ)),
       ("SE", (⊤ : EReal), (none : Option ℕ))] := rfl

/-- Claim C4, amended: for the empty track every per-waypoint result has
`point_index = None` and `min_distance` equal to the `float('inf')` starting
value (modelled `⊤`), which is exposed in the output unchanged. -/
theorem c4_amended (wps : List (String × GeoPoint)) :
    analyze_waypoint_proximity [] wps =
      wps.map (fun e => (e.1, ⟨(⊤ : EReal), (none : Option ℕ)⟩)) := rfl

/-- Claim C1, counterexample: adjacency does NOT wrap backwards — for the
first corner `GATE` the source computes `prev_wp = None`
(`prev_wp = ... if idx > 0 else None`), not the last corner `SE` (whose
waypoint entry exists), so entry-bearing analysis is skipped for `GATE`. -/
theorem c1_counterexample :
    (adjacent_wps WAYPOINTS "GATE").1 = none ∧
    lookupWp WAYPOINTS "SE" = some ⟨32.76310780, -117.21337620⟩ := ⟨rfl, rfl⟩

/-- Claim C1, amended: on the closed five-corner loop the NEXT reference
point wraps (the next of the last element `SE` is the first, `GATE`), but
the PREVIOUS reference point does not wrap: the previous of the first
element `GATE` is `None`, so entry-bearing analysis is performed for every
corner except `GATE` (for which `prev_wp` is `None`). -/
theorem c1_amended :
    adjacent_wps WAYPOINTS "GATE" = (none, lookupWp WAYPOINTS "SW") ∧
    adjacent_wps WAYPOINTS "SW" = (lookupWp WAYPOINTS "GATE", lookupWp WAYPOINTS "NW") ∧
    adjacent_wps WAYPOINTS "NW" = (lookupWp WAYPOINTS "SW", lookupWp WAYPOINTS "NE") ∧
    adjacent_wps WAYPOINTS "NE" = (lookupWp WAYPOINTS "NW", lookupWp WAYPOINTS "SE") ∧
    adjacent_wps WAYPOINTS "SE" = (lookupWp WAYPOINTS "NE", lookupWp WAYPOINTS "GATE") :=
  ⟨rfl, rfl, rfl, rfl, rfl⟩

/-! Section: The proximity scan keeps the earliest minimum -/

lemma scanMinLoop_state :
    ∀ (ds : List ℝ) (mR : ℝ) (ci : Option ℕ) (i : ℕ),
      (scanMinLoop (mR : EReal) ci i ds = ((mR : EReal), ci) ∧ ∀ e ∈ ds, mR ≤ e) ∨
      (∃ (l₁ l₂ : List ℝ) (d : ℝ),
        ds = l₁ ++ d :: l₂ ∧
        scanMinLoop (mR : EReal) ci i ds = ((d : EReal), some (i + l₁.length)) ∧
        d < mR ∧ (∀ e ∈ l₁, d < e) ∧ (∀ e ∈ l₂, d ≤ e)) := by
  intro ds
  induction ds with
  | nil =>
    intro mR ci i
    left
    exact ⟨rfl, by simp⟩
  | cons d0 ds ih =>
    intro mR ci i
    by_cases h : d0 < mR
    · have h' : ((d0 : ℝ) : EReal) < ((mR : ℝ) : EReal) := EReal.coe_lt_coe_iff.mpr h
      rw [scanMinLoop, if_pos h']
      rcases ih d0 (some i) (i + 1) with ⟨heq, hall⟩ |
        ⟨l₁, l₂, d, hds, heq, hdm, hl₁, hl₂⟩
      · right
        refine ⟨[], ds, d0, by simp, ?_, h, by simp, hall⟩
        rw [heq]
        simp
      · right
        refine ⟨d0 :: l₁, l₂, d, by simp [hds], ?_, lt_trans hdm h, ?_, hl₂⟩
        · rw [heq]
          simp only [List.length_cons]
          rw [show i + 1 + l₁.length = i + (l₁.length + 1) from by omega]
        · intro e he
          rcases List.mem_cons.mp he with rfl | he'
          · exact hdm
          · exact hl₁ e he'
    · have h' : ¬ ((d0 : ℝ) : EReal) < ((mR : ℝ) : EReal) := by
        rw [EReal.coe_lt_coe_iff]
        exact h
      rw [scanMinLoop, if_neg h']
      have hge : mR ≤ d0 := le_of_not_lt h
      rcases ih mR ci (i + 1) with ⟨heq, hall⟩ |
        ⟨l₁, l₂, d, hds, heq, hdm, hl₁, hl₂⟩
      · left
        refine ⟨heq, ?_⟩
        intro e he
        rcases List.mem_cons.mp he with rfl | he'
        · exact hge
        · exact hall e he'
      · right
        refine ⟨d0 :: l₁, l₂, d, by simp [hds], ?_, hdm, ?_, hl₂⟩
        · rw [heq]
          simp only [List.length_cons]
          rw [show i + 1 + l₁.length = i + (l₁.length + 1) from by omega]
        · intro e he
          rcases List.mem_cons.mp he with rfl | he'
          · exact lt_of_lt_of_le hdm hge
          · exact hl₁ e he'

lemma scanMinLoop_top (d0 : ℝ) (ds : List ℝ) :
    ∃ (l₁ l₂ : List ℝ) (d : ℝ),
      d0 :: ds = l₁ ++ d :: l₂ ∧
      scanMinLoop ⊤ none 0 (d0 :: ds) = ((d : EReal), some l₁.length) ∧
      (∀ e ∈ l₁, d < e) ∧ (∀ e ∈ l₂, d ≤ e) := by
  rw [scanMinLoop, if_pos (EReal.coe_lt_top d0)]
  rcases scanMinLoop_state ds d0 (some 0) 1 with ⟨heq, hall⟩ |
    ⟨l₁, l₂, d, hds, heq, hdm, hl₁, hl₂⟩
  · refine ⟨[], ds, d0, by simp, ?_, by simp, hall⟩
    rw [heq]
    simp
  · refine ⟨d0 :: l₁, l₂, d, by simp [hds], ?_, ?_, hl₂⟩
    · rw [heq]
      simp only [List.length_cons]
      rw [show 1 + l₁.length = l₁.length + 1 from by omega]
    · intro e he
      rcases List.mem_cons.mp he with rfl | he'
      · exact hdm
      · exact hl₁ e he'

lemma proxLoop_eq_scan (wp : GeoPoint) :
    ∀ (coords : List GeoPoint) (m : EReal) (ci : Option ℕ) (i : ℕ),
      proxLoop wp m ci i coords =
        scanMinLoop m ci i
          (coords.map (fun q => haversine_distance q.lat q.lon wp.lat wp.lon)) := by
  intro coords
  induction coords with
  | nil => intro m ci i; rfl
  | cons p ps ih =>
    intro m ci i
    rw [List.map_cons, proxLoop, scanMinLoop]
    by_cases h : ((haversine_distance p.lat p.lon wp.lat wp.lon : ℝ) : EReal) < m
    · rw [if_pos h, if_pos h, ih]
    · rw [if_neg h, if_neg h, ih]

lemma proxLoop_top_spec (wp p : GeoPoint) (ps : List GeoPoint) :
    ∃ (l₁ l₂ : List ℝ) (d : ℝ),
      (p :: ps).map (fun q => haversine_distance q.lat q.lon wp.lat wp.lon) =
        l₁ ++ d :: l₂ ∧
      proxLoop wp ⊤ none 0 (p :: ps) = ((d : EReal), some l₁.length) ∧
      (∀ e ∈ l₁, d < e) ∧ (∀ e ∈ l₂, d ≤ e) := by
  rw [proxLoop_eq_scan, List.map_cons]
  exact scanMinLoop_top _ _

lemma pyMinBy_first_min {α : Type} (f : α → ℝ) :
    ∀ (xs : List α) (best : α), ∃ l₁ l₂ : List α,
      best :: xs = l₁ ++ pyMinBy f best xs :: l₂ ∧
      (∀ a ∈ l₁, f (pyMinBy f best xs) < f a) ∧
      (∀ a ∈ l₂, f (pyMinBy f best xs) ≤ f a) := by
  intro xs
  induction xs with
  | nil =>
    intro best
    exact ⟨[], [], rfl, by simp, by simp⟩
  | cons x xs ih =>
    intro best
    by_cases h : f x < f best
    · rw [pyMinBy, if_pos h]
      obtain ⟨l₁, l₂, hdec, hstrict, hle⟩ := ih x
      have hrb : f (pyMinBy f x xs) < f best := by
        cases l₁ with
        | nil =>
          simp only [List.nil_append] at hdec
          injection hdec with h1 h2
          rw [← h1]
          exact h
        | cons a l₁' =>
          simp only [List.cons_append] at hdec
          injection hdec with h1 h2
          have hax := hstrict a (List.mem_cons_self a l₁')
          rw [← h1] at hax
          exact lt_trans hax h
      refine ⟨best :: l₁, l₂, by rw [List.cons_append, ← hdec], ?_, hle⟩
      intro a ha
      rcases List.mem_cons.mp ha with rfl | ha'
      · exact hrb
      · exact hstrict a ha'
    · rw [pyMinBy, if_neg h]
      have hbx : f best ≤ f x := le_of_not_lt h
      obtain ⟨l₁, l₂, hdec, hstrict, hle⟩ := ih best
      cases l₁ with
      | nil =>
        simp only [List.nil_append] at hdec
        injection hdec with h1 h2
        refine ⟨[], x :: l₂, ?_, by simp, ?_⟩
        · simp only [List.nil_append]
          rw [← h1, ← h2]
        · intro a ha
          rcases List.mem_cons.mp ha with rfl | ha'
          · rw [← h1]
            exact hbx
          · exact hle a ha'
      | cons b l₁' =>
        simp only [List.cons_append] at hdec
        injection hdec with h1 h2
        have hrbest : f (pyMinBy f best xs) < f best := by
          have hb := hstrict b (List.mem_cons_self b l₁')
          rw [← h1] at hb
          exact hb
        refine ⟨best :: x :: l₁', l₂, ?_, ?_, hle⟩
        · simp only [List.cons_append]
          conv_lhs => rw [h2]
        · intro a ha
          rcases List.mem_cons.mp ha with rfl | ha'
          · exact hrbest
          · rcases List.mem_cons.mp ha' with rfl | ha''
            · exact lt_of_lt_of_le hrbest hbx
            · exact hstrict a (List.mem_cons_of_mem b ha'')

/-- Claim C10 (confirmed): ties in closest approach are broken toward the
earliest point.  First part: for every waypoint and nonempty track, the
proximity scan returns exactly the distance at some position `l₁.length`
such that every strictly earlier distance is strictly larger (the state is
updated only on strictly smaller distances) and every later distance is at
least it — i.e. the retained index is the smallest achieving the minimum.
Second part: the per-pass closest-approach point selected by
`min(pass_points, key=dist)` is the first point of the pass attaining the
minimum distance: all points before it in the pass are strictly farther,
all points after it at least as far. -/
theorem c10_tie_break :
    (∀ (wp p : GeoPoint) (ps : List GeoPoint), ∃ (l₁ l₂ : List ℝ) (d : ℝ),
      (p :: ps).map (fun q => haversine_distance q.lat q.lon wp.lat wp.lon) =
        l₁ ++ d :: l₂ ∧
      proxLoop wp ⊤ none 0 (p :: ps) = ((d : EReal), some l₁.length) ∧
      (∀ e ∈ l₁, d < e) ∧ (∀ e ∈ l₂, d ≤ e)) ∧
    (∀ (p : CornerPoint) (ps : List CornerPoint), ∃ (l₁ l₂ : List CornerPoint),
      passClosest (p :: ps) = some (pyMinBy CornerPoint.dist p ps) ∧
      p :: ps = l₁ ++ pyMinBy CornerPoint.dist p ps :: l₂ ∧
      (∀ q ∈ l₁, (pyMinBy CornerPoint.dist p ps).dist < q.dist) ∧
      (∀ q ∈ l₂, (pyMinBy CornerPoint.dist p ps).dist ≤ q.dist)) := by
  constructor
  · intro wp p ps
    exact proxLoop_top_spec wp p ps
  · intro p ps
    obtain ⟨l₁, l₂, hdec, hs, hl⟩ := pyMinBy_first_min CornerPoint.dist ps p
    exact ⟨l₁, l₂, rfl, hdec, hs, hl⟩

end Ardu
